import Mathlib

/-!
Shallow embedding of `jax/_src/sqlite_cache.py` (class `SqliteCache`).

The store is modelled as the list of rows of the `cache_entries` table;
byte strings are modelled as `List Nat`, wall-clock timestamps as `Nat`.
All operations are translated directly from the source:

* `getStore`   — `SqliteCache.get` (lines 65-80),
* `upsert`     — the `INSERT ... ON CONFLICT(key) DO UPDATE` of `put`
                 (lines 87-93); note the `DO UPDATE` clause sets only
                 `content` and `last_accessed`, not `size`,
* `survivors`  — the `DELETE ... WHERE cumsize > :limit` sweep of `put`
                 (lines 94-107), whose window is
                 `SUM(size) OVER (ORDER BY last_accessed DESC
                  ROWS BETWEEN UNBOUNDED PRECEDING AND CURRENT ROW)`,
* `putStore`   — `SqliteCache.put` (lines 82-107),
* the `initLoop`/`setupStep` family — `SqliteCache.__init__`'s
  `while not self._setup(db_path)` loop (lines 37-40) and `_setup`
  (lines 44-63).
-/

deriving instance DecidableEq for Except

namespace SqliteCacheModel

/-- One row of the `cache_entries` table (schema at lines 52-60 of the
source): `key str PRIMARY KEY, content blob, size integer,
last_accessed numeric`. -/
structure Entry where
  key : String
  content : List Nat
  size : Nat
  lastAccessed : Nat
deriving DecidableEq

/-- The `cache_entries` table, as its list of rows. -/
abbrev Store := List Entry

/-- The only error the `get`/`put` paths raise themselves:
`ValueError("key cannot be empty")`. -/
inductive CacheError where
  | invalidArgument
deriving DecidableEq

/-- `_DB_SCHEMA_VERSION = 1` (line 22). -/
def dbSchemaVersion : Nat := 1

/-- `self._size_limit = 10e6` (line 28). -/
def sizeLimit : Nat := 10000000

/-- `SELECT content FROM cache_entries WHERE key = ?` — row lookup by
primary key. -/
def lookupEntry (s : Store) (k : String) : Option Entry :=
  s.find? (fun e => e.key == k)

/-- `UPDATE cache_entries SET last_accessed = :now WHERE key = :key`
(lines 75-78). -/
def touch (s : Store) (k : String) (now : Nat) : Store :=
  s.map (fun e => if e.key == k then Entry.mk e.key e.content e.size now else e)

/-- `SqliteCache.get` (lines 65-80): raise on the empty key, return
`none` on a miss, otherwise bump `last_accessed` of the queried row and
return its `content`.  The returned pair is (result, table after the
call). -/
def getStore (s : Store) (k : String) (now : Nat) :
    Except CacheError (Option (List Nat)) × Store :=
  if k = "" then (Except.error CacheError.invalidArgument, s)
  else
    match lookupEntry s k with
    | none => (Except.ok none, s)
    | some e => (Except.ok (some e.content), touch s k now)

/-- The upsert of `put` (lines 87-93):
`INSERT INTO cache_entries (key, content, size, last_accessed)
 VALUES(:key, :content, :size, :now) ON CONFLICT(key)
 DO UPDATE SET content=excluded.content, last_accessed=:now`.
On conflict the source updates `content` and `last_accessed` only — the
`size` column keeps its previous value. -/
def upsert (s : Store) (k : String) (v : List Nat) (now : Nat) : Store :=
  match lookupEntry s k with
  | none => s ++ [Entry.mk k v v.length now]
  | some _ => s.map (fun e => if e.key == k then Entry.mk e.key v e.size now else e)

/-- The ordering of the eviction window: `ORDER BY last_accessed DESC`. -/
def rge (a b : Entry) : Prop := b.lastAccessed ≤ a.lastAccessed

instance : DecidableRel rge := fun a b => Nat.decLe b.lastAccessed a.lastAccessed

instance : IsTotal Entry rge := ⟨fun a b => Nat.le_total b.lastAccessed a.lastAccessed⟩

instance : IsTrans Entry rge := ⟨fun _ _ _ h1 h2 => Nat.le_trans h2 h1⟩

/-- Total of the `size` column over a list of rows. -/
def sumSizes : List Entry → Nat
  | [] => 0
  | e :: t => e.size + sumSizes t

/-- The `DELETE` of `put` (lines 94-107) applied to the rows listed in
window order (most recently used first): a row whose running cumulative
size — inclusive of the row itself (`ROWS BETWEEN UNBOUNDED PRECEDING
AND CURRENT ROW`) — exceeds the limit is deleted (`WHERE cumsize >
:limit`); the others survive.  `acc` is the cumulative size of all rows
already scanned, deleted or not. -/
def survivors (limit : Nat) : Nat → List Entry → List Entry
  | _, [] => []
  | acc, e :: rest =>
    if limit < acc + e.size then survivors limit (acc + e.size) rest
    else e :: survivors limit (acc + e.size) rest

/-- The eviction sweep of `put`: order the rows by `last_accessed`
descending and delete every row whose inclusive cumulative size exceeds
the limit.  SQLite's ordering of rows with equal `last_accessed` is
unspecified; this executable model uses insertion sort (a stable sort)
as one admissible ordering, and order-independent facts are proved
against `validEvictionOrder` below. -/
def evictSweep (limit : Nat) (s : Store) : Store :=
  survivors limit 0 (List.insertionSort rge s)

/-- A list of rows the SQL window `ORDER BY last_accessed DESC` may
present to the eviction sweep: a permutation of the table sorted by
`last_accessed` descending, ties in any order. -/
def validEvictionOrder (s l : List Entry) : Prop :=
  s.Perm l ∧ l.Sorted rge

instance (s l : List Entry) : Decidable (validEvictionOrder s l) :=
  inferInstanceAs (Decidable (s.Perm l ∧ l.Sorted rge))

/-- `SqliteCache.put` (lines 82-107): raise on the empty key, otherwise
upsert the row and run the eviction sweep in the same transaction. -/
def putStore (s : Store) (k : String) (v : List Nat) (now limit : Nat) :
    Except CacheError Store :=
  if k = "" then Except.error CacheError.invalidArgument
  else Except.ok (evictSweep limit (upsert s k v now))

/-- `put(key, value)` immediately followed by `get(key)`, returning the
`get` result. -/
def putThenGet (s : Store) (k : String) (v : List Nat) (t1 t2 limit : Nat) :
    Except CacheError (Option (List Nat)) :=
  match putStore s k v t1 limit with
  | Except.error e => Except.error e
  | Except.ok s1 => (getStore s1 k t2).1

/-- Run a sequence of `put` operations (key, content, timestamp).  A
`put` that raises (empty key) leaves the table unchanged, as the source
raises before touching the database. -/
def runPuts (limit : Nat) : List (String × List Nat × Nat) → Store → Store
  | [], s => s
  | (k, v, t) :: ops, s =>
    match putStore s k v t limit with
    | Except.ok s1 => runPuts limit ops s1
    | Except.error _ => runPuts limit ops s

/-- The keys of the table are pairwise distinct (`key` is the primary
key). -/
def keysNodup (s : Store) : Prop := (s.map Entry.key).Nodup

instance (s : Store) : Decidable (keysNodup s) :=
  inferInstanceAs (Decidable ((s.map Entry.key).Nodup))

/-- Cumulative size of the rows at least as recently accessed as `e`
(inclusive of `e` itself), the order-free reading of the window's
`cumsize` for tables with distinct timestamps. -/
def cumSizeIn (s : Store) (e : Entry) : Nat :=
  sumSizes (s.filter (fun f => decide (e.lastAccessed ≤ f.lastAccessed)))

/-- Isolation-level strings accepted by `sqlite3.connect`; passing any
other string makes `connect` raise `ValueError`.  Modelled from the
Python `sqlite3` API contract (the `isolation_level` parameter). -/
def validIsolationLevels : List String := ["", "DEFERRED", "IMMEDIATE", "EXCLUSIVE"]

/-- The `isolation_level` string of `_setup`'s connect call (line 46 of
the source).  The source text there, `isolation_level="IMMEDATE""`, has
an unterminated extra quote and does not even tokenize as Python; read
charitably it passes the string "IMMEDATE" (a misspelling of
"IMMEDIATE", which `sqlite3.connect` rejects). -/
def setupIsolationLevel : String := "IMMEDATE"

/-- Errors raised on the initialization path. -/
inductive PyError where
  | valueError
deriving DecidableEq

/-- `sqlite3.connect`'s validation of its `isolation_level` argument. -/
def connectCheck (lvl : String) : Except PyError Unit :=
  if validIsolationLevels.contains lvl then Except.ok ()
  else Except.error PyError.valueError

/-- A Python value as it appears in `_setup`'s version check: an int, or
a row tuple of ints as yielded by iterating a cursor. -/
inductive PyVal where
  | int : Nat → PyVal
  | row : List Nat → PyVal
deriving DecidableEq

/-- Python `==` on those values: ints compare by value, rows compare
elementwise, and a row tuple never equals an int. -/
def pyEq : PyVal → PyVal → Bool
  | PyVal.int a, PyVal.int b => a == b
  | PyVal.row a, PyVal.row b => a == b
  | _, _ => false

/-- The version-check body of `_setup` (lines 47-63), as a function of
the `user_version` stamped on the database file (0 for a fresh file).
`db_version, = cur.execute("PRAGMA main.user_version")` (line 49)
unpacks the cursor, so `db_version` is bound to the whole one-element
row `(v,)`, not to `v`.  The body returns True after stamping the schema
version and creating the table when `db_version == 0`, returns False
(schema mismatch) when `db_version != _DB_SCHEMA_VERSION`, and returns
True otherwise.  Result: (returned bool, user_version left on file). -/
def setupVersionCheck (v : Nat) : Bool × Nat :=
  let dbVersion := PyVal.row [v]
  if pyEq dbVersion (PyVal.int 0) then (true, dbSchemaVersion)
  else if !(pyEq dbVersion (PyVal.int dbSchemaVersion)) then (false, v)
  else (true, v)

/-- `_setup` (lines 44-63): reconnect with
`isolation_level=setupIsolationLevel`, then run the version check on the
stamped version. -/
def setupStep (v : Nat) : Except PyError (Bool × Nat) :=
  match connectCheck setupIsolationLevel with
  | Except.error e => Except.error e
  | Except.ok _ => Except.ok (setupVersionCheck v)

/-- The `while not self._setup(db_path)` loop of `__init__` (lines
37-40), with `fuel` bounding the number of loop iterations: each failed
`_setup` closes the connection, unlinks the database file (so the next
attempt sees a fresh file, whose `user_version` is 0) and retries.
`none` means the bound was exhausted with the loop still running; an
exception from `_setup` propagates out of the loop. -/
def initLoop (fuel : Nat) (v : Nat) : Option (Except PyError Nat) :=
  match fuel with
  | 0 => none
  | fuel + 1 =>
    match setupStep v with
    | Except.error e => some (Except.error e)
    | Except.ok (true, v1) => some (Except.ok v1)
    | Except.ok (false, _) => initLoop fuel 0

/-- The same retry loop under the counterfactual that the connect call
inside `_setup` succeeds, isolating the version-check retry logic of
`__init__` from the failing connect. -/
def initVersionLoop (fuel : Nat) (v : Nat) : Option Nat :=
  match fuel with
  | 0 => none
  | fuel + 1 =>
    match setupVersionCheck v with
    | (true, v1) => some v1
    | (false, _) => initVersionLoop fuel 0

/-- Rows used by the concrete eviction-tie scenario: two entries of size
6 sharing one `last_accessed` value. -/
def entA : Entry := Entry.mk "a" [0, 0, 0, 0, 0, 0] 6 5

/-- Second row of the tie scenario. -/
def entB : Entry := Entry.mk "b" [0, 0, 0, 0, 0, 0] 6 5

/-- A sample row for concrete instantiations. -/
def wA : Entry := Entry.mk "a" [1] 1 0

/-- Most recent row of the concrete three-row eviction scenario. -/
def rowR : Entry := Entry.mk "b" [0, 0, 0, 0] 4 20

/-- Middle row of the concrete three-row eviction scenario. -/
def rowM : Entry := Entry.mk "a" [0, 0, 0] 3 10

/-- Oldest row of the concrete three-row eviction scenario. -/
def rowO : Entry := Entry.mk "c" [0, 0] 2 5

/-! Helper lemmas about the eviction sweep. -/

lemma survivors_of_over (limit : Nat) :
    ∀ (l : List Entry) (acc : Nat), limit < acc → survivors limit acc l = [] := by
  intro l
  induction l with
  | nil => intro acc _; rfl
  | cons e rest ih =>
    intro acc hacc
    have hacc1 : limit < acc + e.size :=
      Nat.lt_of_lt_of_le hacc (Nat.le_add_right acc e.size)
    simp only [survivors, if_pos hacc1]
    exact ih (acc + e.size) hacc1

lemma mem_of_mem_survivors (limit : Nat) :
    ∀ (l : List Entry) (acc : Nat) (x : Entry),
      x ∈ survivors limit acc l → x ∈ l := by
  intro l
  induction l with
  | nil => intro acc x hx; exact absurd hx (List.not_mem_nil x)
  | cons e rest ih =>
    intro acc x hx
    simp only [survivors] at hx
    by_cases hc : limit < acc + e.size
    · rw [if_pos hc] at hx
      exact List.mem_cons_of_mem e (ih _ x hx)
    · rw [if_neg hc] at hx
      rcases List.mem_cons.mp hx with h | h
      · exact h ▸ List.mem_cons_self e rest
      · exact List.mem_cons_of_mem e (ih _ x h)

lemma survivors_sum (limit : Nat) :
    ∀ (l : List Entry) (acc : Nat),
      acc + sumSizes (survivors limit acc l) ≤ limit ∨
        sumSizes (survivors limit acc l) = 0 := by
  intro l
  induction l with
  | nil => intro acc; right; rfl
  | cons e rest ih =>
    intro acc
    simp only [survivors]
    by_cases hc : limit < acc + e.size
    · rw [if_pos hc]
      rcases ih (acc + e.size) with h | h
      · left; omega
      · right; exact h
    · rw [if_neg hc]
      rcases ih (acc + e.size) with h | h
      · left; simp only [sumSizes]; omega
      · left; simp only [sumSizes, h]
        omega

lemma sumSizes_evictSweep_le (limit : Nat) (s : Store) :
    sumSizes (evictSweep limit s) ≤ limit := by
  unfold evictSweep
  rcases survivors_sum limit (List.insertionSort rge s) 0 with h | h
  · omega
  · omega

lemma runPuts_sum_le (limit : Nat) :
    ∀ (ops : List (String × List Nat × Nat)) (s : Store),
      sumSizes s ≤ limit → sumSizes (runPuts limit ops s) ≤ limit := by
  intro ops
  induction ops with
  | nil => intro s hs; exact hs
  | cons op rest ih =>
    intro s hs
    rcases op with ⟨k, v, t⟩
    simp only [runPuts]
    by_cases hk : k = ""
    · simp only [putStore, if_pos hk]
      exact ih s hs
    · simp only [putStore, if_neg hk]
      exact ih _ (sumSizes_evictSweep_le limit _)

lemma sumSizes_sublist_le {l1 l2 : List Entry} (h : l1.Sublist l2) :
    sumSizes l1 ≤ sumSizes l2 := by
  induction h with
  | slnil => exact Nat.le_refl 0
  | cons e _ ih => simp only [sumSizes]; omega
  | cons₂ e _ ih => simp only [sumSizes]; omega

lemma sumSizes_eq_sum_map (l : List Entry) :
    sumSizes l = (l.map Entry.size).sum := by
  induction l with
  | nil => rfl
  | cons e t ih => simp [sumSizes, ih]

lemma sumSizes_perm {l1 l2 : List Entry} (h : l1.Perm l2) :
    sumSizes l1 = sumSizes l2 := by
  rw [sumSizes_eq_sum_map, sumSizes_eq_sum_map]
  exact (h.map Entry.size).sum_eq

lemma eq_of_keysNodup {s : Store} (h : keysNodup s) :
    ∀ {e1 e2 : Entry}, e1 ∈ s → e2 ∈ s → e1.key = e2.key → e1 = e2 := by
  induction s with
  | nil => intro e1 e2 h1 _ _; exact absurd h1 (List.not_mem_nil e1)
  | cons a t ih =>
    intro e1 e2 h1 h2 hk
    have hn : a.key ∉ t.map Entry.key ∧ (t.map Entry.key).Nodup := by
      simpa [keysNodup, List.nodup_cons] using h
    rcases List.mem_cons.mp h1 with h1 | h1 <;>
      rcases List.mem_cons.mp h2 with h2 | h2
    · rw [h1, h2]
    · exfalso
      apply hn.1
      have hak : a.key = e2.key := by rw [← h1]; exact hk
      rw [hak]
      exact List.mem_map_of_mem Entry.key h2
    · exfalso
      apply hn.1
      have hak : a.key = e1.key := by rw [← h2]; exact hk.symm
      rw [hak]
      exact List.mem_map_of_mem Entry.key h1
    · exact ih hn.2 h1 h2 hk

lemma sorted_head_eq {m : Entry} :
    ∀ {l : List Entry}, l.Sorted rge → m ∈ l →
      (∀ x ∈ l, x ≠ m → x.lastAccessed < m.lastAccessed) →
      ∃ t, l = m :: t := by
  intro l hs hm hmax
  cases l with
  | nil => exact absurd hm (List.not_mem_nil m)
  | cons h t =>
    by_cases hhm : h = m
    · exact ⟨t, by rw [hhm]⟩
    · exfalso
      have hmt : m ∈ t := by
        rcases List.mem_cons.mp hm with hc | hc
        · exact absurd hc.symm hhm
        · exact hc
      have h1 : rge h m := (List.pairwise_cons.mp hs).1 m hmt
      have h2 : h.lastAccessed < m.lastAccessed :=
        hmax h (List.mem_cons_self h t) hhm
      exact Nat.lt_irrefl _ (Nat.lt_of_le_of_lt h1 h2)

/-- After the upsert of `put(k, v)` at time `t1` on a well-formed table
whose rows are all strictly older than `t1`, the sorted eviction order
starts with the upserted row: its content is `v`, its timestamp is `t1`,
and its `size` column is `len(v)` if the key was absent but the *old*
size if the key was present (the `DO UPDATE` clause does not set
`size`). -/
lemma insertionSort_upsert_head (s : Store) (k : String) (v : List Nat) (t1 : Nat)
    (hnd : keysNodup s) (hfresh : ∀ e ∈ s, e.lastAccessed < t1) :
    ∃ (m : Entry) (t : List Entry),
      m.key = k ∧ m.content = v ∧ m.lastAccessed = t1 ∧
      (lookupEntry s k = none → m.size = v.length) ∧
      (∀ e0, lookupEntry s k = some e0 → m.size = e0.size) ∧
      List.insertionSort rge (upsert s k v t1) = m :: t := by
  have hkey :
      ∃ m : Entry, m ∈ upsert s k v t1 ∧ m.key = k ∧ m.content = v ∧
        m.lastAccessed = t1 ∧
        (lookupEntry s k = none → m.size = v.length) ∧
        (∀ e0, lookupEntry s k = some e0 → m.size = e0.size) ∧
        (∀ x ∈ upsert s k v t1, x ≠ m → x.lastAccessed < t1) := by
    cases hlk : lookupEntry s k with
    | none =>
      refine ⟨Entry.mk k v v.length t1, ?_, rfl, rfl, rfl, fun _ => rfl,
        fun e0 h0 => Option.noConfusion h0, ?_⟩
      · simp [upsert, hlk]
      · intro x hx hne
        simp only [upsert, hlk] at hx
        rcases List.mem_append.mp hx with h | h
        · exact hfresh x h
        · exact absurd (List.mem_singleton.mp h) hne
    | some e0 =>
      have he0s : e0 ∈ s := List.mem_of_find?_eq_some hlk
      have he0k : e0.key = k := by
        have := List.find?_some hlk
        simpa [lookupEntry] using this
      refine ⟨Entry.mk e0.key v e0.size t1, ?_, he0k, rfl, rfl,
        fun h0 => Option.noConfusion h0,
        fun e1 h1 => by
          have hee : e0 = e1 := Option.some.inj h1
          simp [← hee], ?_⟩
      · have himg :
            (fun e => if e.key == k then Entry.mk e.key v e.size t1 else e) e0 =
              Entry.mk e0.key v e0.size t1 := by
          simp [he0k]
        have := List.mem_map_of_mem
          (fun e => if e.key == k then Entry.mk e.key v e.size t1 else e) he0s
        rw [himg] at this
        simpa [upsert, hlk] using this
      · intro x hx hne
        simp only [upsert, hlk] at hx
        rcases List.mem_map.mp hx with ⟨e, hes, hex⟩
        by_cases hek : e.key == k
        · exfalso
          have hee0 : e = e0 :=
            eq_of_keysNodup hnd hes he0s (by rw [eq_of_beq hek, he0k])
          rw [if_pos hek, hee0] at hex
          exact hne (hex.symm ▸ rfl)
        · rw [if_neg hek] at hex
          exact hex ▸ hfresh e hes
  rcases hkey with ⟨m, hm, hk1, hk2, hk3, hk4, hk5, hmax⟩
  have hm' : m ∈ List.insertionSort rge (upsert s k v t1) :=
    (List.mem_insertionSort rge).mpr hm
  have hmax' : ∀ x ∈ List.insertionSort rge (upsert s k v t1),
      x ≠ m → x.lastAccessed < m.lastAccessed := by
    intro x hx hne
    exact hk3 ▸ hmax x ((List.mem_insertionSort rge).mp hx) hne
  rcases sorted_head_eq (List.sorted_insertionSort rge _) hm' hmax' with ⟨t, ht⟩
  exact ⟨m, t, hk1, hk2, hk3, hk4, hk5, ht⟩

lemma filter_ge_head_eq (e : Entry) (rest : List Entry)
    (hle : ∀ f ∈ rest, f.lastAccessed ≤ e.lastAccessed)
    (hne : ∀ f ∈ rest, e.lastAccessed ≠ f.lastAccessed) :
    (e :: rest).filter (fun f => decide (e.lastAccessed ≤ f.lastAccessed)) = [e] := by
  rw [List.filter_cons_of_pos (by simp)]
  have : rest.filter (fun f => decide (e.lastAccessed ≤ f.lastAccessed)) = [] := by
    rw [List.filter_eq_nil_iff]
    intro f hf
    simp only [decide_eq_true_eq]
    intro hef
    exact hne f hf (Nat.le_antisymm hef (hle f hf))
  rw [this]

lemma filter_ge_cons_of_le (x e : Entry) (rest : List Entry)
    (hxe : x.lastAccessed ≤ e.lastAccessed) :
    (e :: rest).filter (fun f => decide (x.lastAccessed ≤ f.lastAccessed)) =
      e :: rest.filter (fun f => decide (x.lastAccessed ≤ f.lastAccessed)) :=
  List.filter_cons_of_pos (by simpa)

/-- Seen through the window's inclusive cumulative sums, a row of a
table with pairwise-distinct timestamps survives the sweep exactly when
the total size of the rows at least as recent as it fits in the
limit. -/
lemma mem_survivors_iff (limit : Nat) :
    ∀ (l : List Entry), l.Sorted rge →
      l.Pairwise (fun a b => a.lastAccessed ≠ b.lastAccessed) →
      ∀ (acc : Nat) (x : Entry),
        (x ∈ survivors limit acc l ↔
          x ∈ l ∧ acc +
            sumSizes (l.filter (fun f => decide (x.lastAccessed ≤ f.lastAccessed)))
              ≤ limit) := by
  intro l
  induction l with
  | nil =>
    intro _ _ acc x
    simp [survivors]
  | cons e rest ih =>
    intro hs hd acc x
    have hle : ∀ f ∈ rest, f.lastAccessed ≤ e.lastAccessed :=
      (List.pairwise_cons.mp hs).1
    have hne : ∀ f ∈ rest, e.lastAccessed ≠ f.lastAccessed :=
      (List.pairwise_cons.mp hd).1
    have hs' : rest.Sorted rge := hs.of_cons
    have hd' : rest.Pairwise (fun a b => a.lastAccessed ≠ b.lastAccessed) :=
      (List.pairwise_cons.mp hd).2
    have hsum_e :
        sumSizes ((e :: rest).filter
          (fun f => decide (e.lastAccessed ≤ f.lastAccessed))) = e.size := by
      rw [filter_ge_head_eq e rest hle hne]
      simp [sumSizes]
    have hnotmem : e ∉ rest := fun hmem => hne e hmem rfl
    by_cases hc : limit < acc + e.size
    · rw [show survivors limit acc (e :: rest) =
          survivors limit (acc + e.size) rest by
        simp only [survivors, if_pos hc]]
      by_cases hxe : x = e
      · subst hxe
        rw [hsum_e]
        constructor
        · intro hmem
          exact absurd (mem_of_mem_survivors limit rest _ x hmem) hnotmem
        · intro ⟨_, hle'⟩
          omega
      · rw [ih hs' hd' (acc + e.size) x]
        by_cases hxr : x ∈ rest
        · have hxle : x.lastAccessed ≤ e.lastAccessed := hle x hxr
          rw [filter_ge_cons_of_le x e rest hxle]
          simp only [sumSizes]
          constructor
          · intro ⟨_, hb⟩
            exact ⟨List.mem_cons_of_mem e hxr, by omega⟩
          · intro ⟨_, hb⟩
            exact ⟨hxr, by omega⟩
        · constructor
          · intro ⟨hmem, _⟩
            exact absurd hmem hxr
          · intro ⟨hmem, _⟩
            rcases List.mem_cons.mp hmem with h | h
            · exact absurd h hxe
            · exact absurd h hxr
    · rw [show survivors limit acc (e :: rest) =
          e :: survivors limit (acc + e.size) rest by
        simp only [survivors, if_neg hc]]
      by_cases hxe : x = e
      · subst hxe
        rw [hsum_e]
        constructor
        · intro _
          exact ⟨List.mem_cons_self x rest, by omega⟩
        · intro _
          exact List.mem_cons_self x _
      · rw [List.mem_cons]
        have hx' := ih hs' hd' (acc + e.size) x
        constructor
        · intro hmem
          rcases hmem with h | h
          · exact absurd h hxe
          · rcases (hx'.mp h) with ⟨hxr, hb⟩
            have hxle : x.lastAccessed ≤ e.lastAccessed := hle x hxr
            rw [filter_ge_cons_of_le x e rest hxle]
            simp only [sumSizes]
            exact ⟨List.mem_cons_of_mem e hxr, by omega⟩
        · intro ⟨hmem, hb⟩
          rcases List.mem_cons.mp hmem with h | h
          · exact absurd h hxe
          · right
            apply hx'.mpr
            refine ⟨h, ?_⟩
            have hxle : x.lastAccessed ≤ e.lastAccessed := hle x h
            rw [filter_ge_cons_of_le x e rest hxle] at hb
            simp only [sumSizes] at hb
            omega

/-- Two orderings of one table that are both sorted by `last_accessed`
descending coincide when the timestamps are pairwise distinct. -/
lemma sorted_perm_eq_of_distinct :
    ∀ {l1 l2 : List Entry}, l1.Perm l2 → l1.Sorted rge → l2.Sorted rge →
      l1.Pairwise (fun a b => a.lastAccessed ≠ b.lastAccessed) → l1 = l2 := by
  intro l1
  induction l1 with
  | nil =>
    intro l2 hp _ _ _
    exact (hp.symm.eq_nil).symm
  | cons a t1 ih =>
    intro l2 hp hs1 hs2 hd1
    cases l2 with
    | nil => exact absurd hp.symm (by simp)
    | cons b t2 =>
      have hab : a = b := by
        by_cases h : a = b
        · exact h
        · exfalso
          have hbl1 : b ∈ a :: t1 := hp.symm.subset (List.mem_cons_self b t2)
          have hal2 : a ∈ b :: t2 := hp.subset (List.mem_cons_self a t1)
          have hbt1 : b ∈ t1 := by
            rcases List.mem_cons.mp hbl1 with hc | hc
            · exact absurd hc.symm h
            · exact hc
          have hat2 : a ∈ t2 := by
            rcases List.mem_cons.mp hal2 with hc | hc
            · exact absurd hc h
            · exact hc
          have h1 : b.lastAccessed ≤ a.lastAccessed :=
            (List.pairwise_cons.mp hs1).1 b hbt1
          have h2 : a.lastAccessed ≤ b.lastAccessed :=
            (List.pairwise_cons.mp hs2).1 a hat2
          exact (List.pairwise_cons.mp hd1).1 b hbt1 (Nat.le_antisymm h2 h1)
      subst hab
      have hp' : t1.Perm t2 := hp.cons_inv
      rw [ih hp' hs1.of_cons hs2.of_cons (List.pairwise_cons.mp hd1).2]

/-- Shared core: a `put` of a fresh key whose content alone exceeds the
budget, with the write strictly most recent, leaves the table empty —
the sweep's window includes the current row, so the new row's own
cumulative size already exceeds the limit and the row is deleted along
with every other one. -/
lemma putStore_oversized_core (s : Store) (k : String) (v : List Nat)
    (t1 limit : Nat) (hk : k ≠ "") (habs : lookupEntry s k = none)
    (hbig : limit < v.length) (hnd : keysNodup s)
    (hfresh : ∀ e ∈ s, e.lastAccessed < t1) :
    putStore s k v t1 limit = Except.ok [] := by
  rcases insertionSort_upsert_head s k v t1 hnd hfresh with
    ⟨m, t, hm1, hm2, hm3, hm4, hm5, hsort⟩
  have hmsize : m.size = v.length := hm4 habs
  simp only [putStore, if_neg hk, evictSweep, hsort, survivors]
  rw [if_pos (by omega : limit < 0 + m.size)]
  exact congrArg Except.ok (survivors_of_over limit t (0 + m.size) (by omega))

/-- Shared computation: the concrete oversized `put` on the code's
configured budget of 10000000 bytes. -/
lemma putStore_big :
    putStore [] "k" (List.replicate 10000001 0) 0 sizeLimit = Except.ok [] :=
  putStore_oversized_core [] "k" (List.replicate 10000001 0) 0 sizeLimit
    (by decide) rfl (by rw [List.length_replicate]; decide) (by decide)
    (by decide)

/-- Unfolding step for `putThenGet` after a successful `put`. -/
lemma putThenGet_of_put {s s1 : Store} {k : String} {v : List Nat}
    {t1 t2 limit : Nat} (h : putStore s k v t1 limit = Except.ok s1) :
    putThenGet s k v t1 t2 limit = (getStore s1 k t2).1 := by
  unfold putThenGet
  rw [h]

/-- C1: the claim says every entry always has `size` equal to the byte
length of its `content`, `put` on an existing key overwriting both.  In
the code the `ON CONFLICT ... DO UPDATE` clause omits `size`, so after
`put("k", 2 bytes)` then `put("k", 4 bytes)` the surviving row has
`size = 2` but 4 bytes of content: the store contains an entry whose
`size` differs from its content length. -/
theorem c1_stale_size :
    ∃ e ∈ runPuts 10 [("k", [0, 0], 0), ("k", [0, 0, 0, 0], 1)] [],
      e.size ≠ e.content.length := by decide

/-- C2 counterexample: the claim says that after `put(key, v)` with
`len(v)` alone exceeding the budget, the newly written entry is still
present.  In the code the window's cumulative sum includes the current
row, so the new entry's own cumulative size exceeds the budget and the
entry is deleted too: the resulting store is empty, the new entry is not
present. -/
theorem c2_counterexample :
    putStore [] "k" (List.replicate 10000001 0) 0 sizeLimit = Except.ok [] :=
  putStore_big

/-- C2 (amended): when `put(key, v)` writes a fresh key whose content
length alone exceeds the budget and the write is strictly the most
recent, the eviction sweep that follows deletes every entry *including
the newly written one*: the store is left empty. -/
theorem c2_oversized_put (s : Store) (k : String) (v : List Nat) (t1 limit : Nat)
    (hk : k ≠ "") (habs : lookupEntry s k = none) (hbig : limit < v.length)
    (hnd : keysNodup s) (hfresh : ∀ e ∈ s, e.lastAccessed < t1) :
    putStore s k v t1 limit = Except.ok [] :=
  putStore_oversized_core s k v t1 limit hk habs hbig hnd hfresh

/-- C2 witness: concrete oversized fresh put with budget 2 and a
3-byte value, leaving the store empty. -/
theorem c2_oversized_put_witness :
    (("x" : String) ≠ "" ∧ lookupEntry [] "x" = none ∧ (2 : Nat) < 3 ∧
      keysNodup [] ∧ (∀ e ∈ ([] : Store), e.lastAccessed < 0)) ∧
    putStore [] "x" [0, 0, 0] 0 2 = Except.ok [] :=
  ⟨⟨by decide, by decide, by decide, by decide, by decide⟩,
    c2_oversized_put [] "x" [0, 0, 0] 0 2 (by decide) (by decide) (by decide)
      (by decide) (by decide)⟩

/-- C3 counterexample: the claim says `put(key, v)` immediately followed
by `get(key)` returns exactly `v` for every non-empty key and every `v`.
With `len(v)` beyond the budget the eviction sweep inside `put` deletes
the new entry itself, and the `get` returns absent instead of `v`. -/
theorem c3_counterexample :
    putThenGet [] "k" (List.replicate 10000001 0) 0 1 sizeLimit ≠
      Except.ok (some (List.replicate 10000001 0)) := by
  have h : putThenGet [] "k" (List.replicate 10000001 0) 0 1 sizeLimit =
      Except.ok none := by
    rw [putThenGet_of_put putStore_big]
    rfl
  rw [h]
  intro hcontra
  exact Option.noConfusion (Except.ok.inj hcontra)

/-- C3 (amended): for every non-empty `key` and content `v` whose length
fits the budget, `put(key, v)` followed immediately by `get(key)` returns
exactly `v`, provided the table is well formed: keys unique, every
existing row strictly older than the write and individually within the
budget (as the sweep maintains). -/
theorem c3_round_trip (s : Store) (k : String) (v : List Nat) (t1 t2 limit : Nat)
    (hk : k ≠ "") (hlen : v.length ≤ limit) (hnd : keysNodup s)
    (hfresh : ∀ e ∈ s, e.lastAccessed < t1) (hsz : ∀ e ∈ s, e.size ≤ limit) :
    putThenGet s k v t1 t2 limit = Except.ok (some v) := by
  rcases insertionSort_upsert_head s k v t1 hnd hfresh with
    ⟨m, t, hm1, hm2, hm3, hm4, hm5, hsort⟩
  have hmsize : m.size ≤ limit := by
    cases hlk : lookupEntry s k with
    | none => rw [hm4 hlk]; exact hlen
    | some e0 => rw [hm5 e0 hlk]; exact hsz e0 (List.mem_of_find?_eq_some hlk)
  have hput : putStore s k v t1 limit =
      Except.ok (m :: survivors limit (0 + m.size) t) := by
    simp only [putStore, if_neg hk, evictSweep, hsort, survivors]
    rw [if_neg (by omega : ¬ limit < 0 + m.size)]
  have hfind : lookupEntry (m :: survivors limit (0 + m.size) t) k = some m := by
    simp [lookupEntry, List.find?, hm1]
  simp only [putThenGet, hput, getStore, if_neg hk, hfind, hm2]

/-- C3 witness: a 1-byte value and budget 5 round-trip on the empty
store. -/
theorem c3_round_trip_witness :
    (("x" : String) ≠ "" ∧ ([5] : List Nat).length ≤ 5 ∧ keysNodup [] ∧
      (∀ e ∈ ([] : Store), e.lastAccessed < 0) ∧
      (∀ e ∈ ([] : Store), e.size ≤ 5)) ∧
    putThenGet [] "x" [5] 0 1 5 = Except.ok (some [5]) :=
  ⟨⟨by decide, by decide, by decide, by decide, by decide⟩,
    c3_round_trip [] "x" [5] 0 1 5 (by decide) (by decide) (by decide)
      (by decide) (by decide)⟩

/-- C4: the claim says that opening a cache whose file is stamped with a
schema version other than the expected one does not raise to the caller
and yields a working store.  In the code `_setup` reconnects with
`isolation_level="IMMEDATE"` (the source line does not even tokenize as
Python because of a doubled quote; reading it as the string "IMMEDATE",
`sqlite3.connect` rejects it), so every open — here, of a file stamped
with version 2 — raises `ValueError` before any recovery can happen. -/
theorem c4_open_raises (fuel : Nat) :
    initLoop (fuel + 1) 2 = some (Except.error PyError.valueError) := rfl

/-- C5: the claim says initialization terminates on every input with at
most one recovery attempt.  Even with `_setup`'s failing connect call set
aside, the version check binds `db_version` to the row tuple `(v,)`
rather than the integer `v`, so `db_version == 0` is always false and
`db_version != _DB_SCHEMA_VERSION` is always true: `_setup` returns
False on every file, including the fresh file produced by the unlink,
and the `while not self._setup(...)` loop of `__init__` never exits —
for every iteration bound and every stamped version, the bounded model
of the loop exhausts its fuel. -/
theorem c5_init_never_terminates (fuel v : Nat) :
    initVersionLoop fuel v = none := by
  induction fuel generalizing v with
  | zero => rfl
  | succ n ih => exact ih 0

/-- C6: after any finite sequence of `put` operations starting from an
empty store, the sum of the `size` column over the retained entries is
at most the configured budget (or the store holds exactly one entry; in
fact the first disjunct always holds, because the sweep deletes every
row whose inclusive cumulative size exceeds the budget). -/
theorem c6_budget (limit : Nat) (ops : List (String × List Nat × Nat)) :
    sumSizes (runPuts limit ops []) ≤ limit ∨ (runPuts limit ops []).length = 1 :=
  Or.inl (runPuts_sum_le limit ops [] (Nat.zero_le limit))

/-- C7: on a store with pairwise-distinct `last_accessed` values whose
total size exceeds the budget, the eviction sweep keeps exactly the
most-recently-used rows whose inclusive cumulative size fits the budget:
every surviving row is a row of the store, a row survives iff the total
size of the rows at least as recent as it fits the budget, and every
surviving row is strictly more recent than every deleted row. -/
theorem c7_eviction_exact (s : Store) (limit : Nat)
    (hd : s.Pairwise (fun a b => a.lastAccessed ≠ b.lastAccessed))
    (hover : limit < sumSizes s) :
    (∀ e ∈ evictSweep limit s, e ∈ s) ∧
    (∀ e ∈ s, (e ∈ evictSweep limit s ↔ cumSizeIn s e ≤ limit)) ∧
    (∀ e ∈ evictSweep limit s, ∀ d ∈ s, d ∉ evictSweep limit s →
      d.lastAccessed < e.lastAccessed) := by
  have hperm : (List.insertionSort rge s).Perm s := List.perm_insertionSort rge s
  have hs' : (List.insertionSort rge s).Sorted rge := List.sorted_insertionSort rge s
  have hd' : (List.insertionSort rge s).Pairwise
      (fun a b => a.lastAccessed ≠ b.lastAccessed) :=
    (List.Perm.pairwise_iff (fun h => Ne.symm h) hperm).mpr hd
  have hmem : ∀ x, x ∈ evictSweep limit s ↔
      (x ∈ List.insertionSort rge s ∧
        0 + sumSizes ((List.insertionSort rge s).filter
          (fun f => decide (x.lastAccessed ≤ f.lastAccessed))) ≤ limit) :=
    fun x => mem_survivors_iff limit _ hs' hd' 0 x
  have hsum : ∀ x, sumSizes ((List.insertionSort rge s).filter
      (fun f => decide (x.lastAccessed ≤ f.lastAccessed))) = cumSizeIn s x :=
    fun x => sumSizes_perm (hperm.filter _)
  refine ⟨?_, ?_, ?_⟩
  · intro e he
    exact hperm.subset ((hmem e).mp he).1
  · intro e hes
    rw [hmem e, hsum e]
    constructor
    · intro ⟨_, hb⟩
      omega
    · intro hb
      exact ⟨hperm.mem_iff.mpr hes, by omega⟩
  · intro e he d hds hdn
    have hes : e ∈ s := hperm.subset ((hmem e).mp he).1
    have hne : e ≠ d := fun h => hdn (h ▸ he)
    have hnet : e.lastAccessed ≠ d.lastAccessed :=
      List.Pairwise.forall (fun x y h => Ne.symm h) hd hes hds hne
    have h2 : cumSizeIn s e ≤ limit := by
      have hb := ((hmem e).mp he).2
      rw [hsum e] at hb
      omega
    have hnotle : ¬ e.lastAccessed ≤ d.lastAccessed := by
      intro hle
      have hsub : (s.filter
          (fun f => decide (d.lastAccessed ≤ f.lastAccessed))).Sublist
          (s.filter (fun f => decide (e.lastAccessed ≤ f.lastAccessed))) :=
        List.monotone_filter_right s (fun a ha => by
          simp only [decide_eq_true_eq] at ha ⊢
          exact Nat.le_trans hle ha)
      have h1 : cumSizeIn s d ≤ cumSizeIn s e := sumSizes_sublist_le hsub
      apply hdn
      rw [hmem d, hsum d]
      exact ⟨hperm.mem_iff.mpr hds, by omega⟩
    omega

/-- C7 witness: three rows of sizes 4, 3, 2 at distinct timestamps with
budget 6 — the sweep keeps exactly the most recent row of size 4. -/
theorem c7_eviction_exact_witness :
    (([rowM, rowR, rowO] : Store).Pairwise
        (fun a b => a.lastAccessed ≠ b.lastAccessed) ∧
      6 < sumSizes [rowM, rowR, rowO]) ∧
    ((∀ e ∈ evictSweep 6 [rowM, rowR, rowO], e ∈ [rowM, rowR, rowO]) ∧
     (∀ e ∈ ([rowM, rowR, rowO] : Store),
        (e ∈ evictSweep 6 [rowM, rowR, rowO] ↔
          cumSizeIn [rowM, rowR, rowO] e ≤ 6)) ∧
     (∀ e ∈ evictSweep 6 [rowM, rowR, rowO], ∀ d ∈ ([rowM, rowR, rowO] : Store),
        d ∉ evictSweep 6 [rowM, rowR, rowO] →
          d.lastAccessed < e.lastAccessed)) :=
  ⟨⟨by decide, by decide⟩,
    c7_eviction_exact [rowM, rowR, rowO] 6 (by decide) (by decide)⟩

/-- C8: `get` and `put` with the empty key both raise the
invalid-argument error, and with any non-empty key neither does. -/
theorem c8_empty_key (s : Store) (v : List Nat) (now limit : Nat) (k : String)
    (hk : k ≠ "") :
    (getStore s "" now).1 = Except.error CacheError.invalidArgument ∧
    putStore s "" v now limit = Except.error CacheError.invalidArgument ∧
    (getStore s k now).1 ≠ Except.error CacheError.invalidArgument ∧
    putStore s k v now limit ≠ Except.error CacheError.invalidArgument := by
  refine ⟨by simp [getStore], by simp [putStore], ?_, ?_⟩
  · simp only [getStore, if_neg hk]
    cases lookupEntry s k with
    | none => intro hcontra; exact Except.noConfusion hcontra
    | some e => intro hcontra; exact Except.noConfusion hcontra
  · simp only [putStore, if_neg hk]
    intro hcontra
    exact Except.noConfusion hcontra

/-- C8 witness: the empty store with key "x". -/
theorem c8_empty_key_witness :
    ("x" ≠ "") ∧
    ((getStore [] "" 0).1 = Except.error CacheError.invalidArgument ∧
     putStore [] "" [0] 0 5 = Except.error CacheError.invalidArgument ∧
     (getStore [] "x" 0).1 ≠ Except.error CacheError.invalidArgument ∧
     putStore [] "x" [0] 0 5 ≠ Except.error CacheError.invalidArgument) :=
  ⟨by decide, c8_empty_key [] [0] 0 5 "x" (by decide)⟩

/-- C9 counterexample: the claim says eviction deletes the same set of
entries on any two runs over one store state, because a deterministic
tie-break is applied to equal timestamps.  The eviction query orders only
by `last_accessed DESC` with no tie-break, so for a store holding two
rows of size 6 with equal timestamps under budget 10, both presentation
orders are admissible for the window, yet one run deletes row "b" and
the other keeps it. -/
theorem c9_counterexample :
    validEvictionOrder [entA, entB] [entA, entB] ∧
    validEvictionOrder [entA, entB] [entB, entA] ∧
    entB ∉ survivors 10 0 [entA, entB] ∧
    entB ∈ survivors 10 0 [entB, entA] := by decide

/-- C9 (amended): eviction is deterministic on every store whose
`last_accessed` values are pairwise distinct — any two admissible
orderings of the window produce identical survivor lists; with equal
timestamps the outcome depends on the unspecified row order, as no
tie-break is applied. -/
theorem c9_deterministic_of_distinct (s o1 o2 : List Entry) (limit : Nat)
    (hd : s.Pairwise (fun a b => a.lastAccessed ≠ b.lastAccessed))
    (h1 : validEvictionOrder s o1) (h2 : validEvictionOrder s o2) :
    survivors limit 0 o1 = survivors limit 0 o2 := by
  have hp : o1.Perm o2 := h1.1.symm.trans h2.1
  have hd1 : o1.Pairwise (fun a b => a.lastAccessed ≠ b.lastAccessed) :=
    (List.Perm.pairwise_iff (fun h => Ne.symm h) h1.1).mp hd
  rw [sorted_perm_eq_of_distinct hp h1.2 h2.2 hd1]

/-- C9 witness: a two-row store with distinct timestamps. -/
theorem c9_deterministic_witness :
    (([rowM, rowR] : Store).Pairwise
        (fun a b => a.lastAccessed ≠ b.lastAccessed) ∧
      validEvictionOrder [rowM, rowR] [rowR, rowM]) ∧
    survivors 6 0 [rowR, rowM] = survivors 6 0 [rowR, rowM] :=
  ⟨⟨by decide, by decide⟩,
    c9_deterministic_of_distinct [rowM, rowR] [rowR, rowM] [rowR, rowM] 6
      (by decide) (by decide) (by decide)⟩

/-- C10: `get` modifies nothing except the `last_accessed` of the queried
key — on the empty key it raises and returns the store unchanged, on an
absent key it returns the store unchanged, any row with a different key
is still present unchanged, the queried key's rows survive with only
`last_accessed` rewritten to the query time, and every row of the
resulting store has the key, content and size of a row of the original
store. -/
theorem c10_get_frame (s : Store) (k : String) (now : Nat) :
    (k = "" → getStore s k now = (Except.error CacheError.invalidArgument, s)) ∧
    (lookupEntry s k = none → (getStore s k now).2 = s) ∧
    (∀ e ∈ s, e.key ≠ k → e ∈ (getStore s k now).2) ∧
    (∀ e ∈ s, e.key = k → k ≠ "" →
      Entry.mk e.key e.content e.size now ∈ (getStore s k now).2) ∧
    (∀ e1 ∈ (getStore s k now).2, ∃ e ∈ s,
      e1.key = e.key ∧ e1.content = e.content ∧ e1.size = e.size) := by
  refine ⟨?_, ?_, ?_, ?_, ?_⟩
  · intro hke
    simp [getStore, hke]
  · intro hnone
    by_cases hke : k = ""
    · simp [getStore, hke]
    · simp [getStore, if_neg hke, hnone]
  · intro e hes hek
    by_cases hke : k = ""
    · simpa [getStore, hke] using hes
    · cases hlk : lookupEntry s k with
      | none => simpa [getStore, if_neg hke, hlk] using hes
      | some e0 =>
        simp only [getStore, if_neg hke, hlk]
        have himg : (fun e => if e.key == k
            then Entry.mk e.key e.content e.size now else e) e = e := by
          simp [beq_eq_false_iff_ne.mpr hek]
        have := List.mem_map_of_mem
          (fun e => if e.key == k then Entry.mk e.key e.content e.size now else e)
          hes
        rw [himg] at this
        simpa [touch] using this
  · intro e hes hek hke
    have hlk : ∃ e0, lookupEntry s k = some e0 := by
      cases hlk0 : lookupEntry s k with
      | none =>
        exfalso
        have := List.find?_eq_none.mp hlk0 e hes
        simp [hek] at this
      | some e0 => exact ⟨e0, rfl⟩
    rcases hlk with ⟨e0, hlk⟩
    simp only [getStore, if_neg hke, hlk]
    have himg : (fun e => if e.key == k
        then Entry.mk e.key e.content e.size now else e) e =
        Entry.mk e.key e.content e.size now := by
      simp [hek]
    have := List.mem_map_of_mem
      (fun e => if e.key == k then Entry.mk e.key e.content e.size now else e)
      hes
    rw [himg] at this
    simpa [touch] using this
  · intro e1 he1
    by_cases hke : k = ""
    · simp only [getStore, hke] at he1
      exact ⟨e1, by simpa using he1, rfl, rfl, rfl⟩
    · cases hlk : lookupEntry s k with
      | none =>
        simp only [getStore, if_neg hke, hlk] at he1
        exact ⟨e1, he1, rfl, rfl, rfl⟩
      | some e0 =>
        simp only [getStore, if_neg hke, hlk, touch] at he1
        rcases List.mem_map.mp he1 with ⟨e, hes, hee⟩
        refine ⟨e, hes, ?_⟩
        by_cases hek : e.key == k
        · rw [if_pos hek] at hee
          rw [← hee]
          exact ⟨rfl, rfl, rfl⟩
        · rw [if_neg hek] at hee
          rw [← hee]
          exact ⟨rfl, rfl, rfl⟩

/-- C10 witness: the empty-key, absent-key and present-key cases on
concrete one-row stores. -/
theorem c10_get_frame_witness :
    getStore [] "" 0 = (Except.error CacheError.invalidArgument, ([] : Store)) ∧
    (getStore [wA] "b" 3).2 = [wA] ∧
    Entry.mk "a" [1] 1 9 ∈ (getStore [wA] "a" 9).2 :=
  ⟨(c10_get_frame [] "" 0).1 rfl,
   (c10_get_frame [wA] "b" 3).2.1 (by decide),
   (c10_get_frame [wA] "a" 9).2.2.2.1 wA (by decide) rfl (by decide)⟩

end SqliteCacheModel
